import Mathlib

/-! Eztasks relay server: line framing, executor registry, relay and heartbeat monitor.

A shallow embedding of `src/eztasks_relay_server.cpp`.

* A `std::string` is a `List Char`.
* A socket's incoming data is the finite list of bytes the peer sends before the
  read primitive reports `n <= 0`; once the list is exhausted every further read
  reports `n <= 0` again.
* `steady_clock` time points are integers counting clock ticks; the number of
  ticks per second is a parameter of the monitor.
* Objects created with `new` live in a heap indexed by address; `delete` empties
  the cell; dereferencing an empty cell has no defined result (`none`).
* The calls to `send` and `close_socket` are recorded, in order, in the state.
-/

namespace EzTasksRelay

/-! ## Data model -/

/-- The struct `ClientConnection` of `eztasks_relay_server.h`. -/
structure ClientConnection where
  socket_fd : Int
  last_heartbeat : Int
deriving DecidableEq, Repr

/-- The process state: the global `Executor` pointer (`none` is `nullptr`), the
global `message_buffer`, the heap of `ClientConnection` objects, and the record
of the `send` and `close_socket` calls made so far. -/
structure State where
  Executor : Option Nat
  message_buffer : List (List Char)
  heap : List (Option ClientConnection)
  sent : List (Int × List Char)
  closed : List Int
deriving DecidableEq, Repr

/-- The constant `HEARTBEAT_TIMEOUT_SEC`. -/
def HEARTBEAT_TIMEOUT_SEC : Int := 20

/-- The state at process start: `Executor = nullptr`, empty `message_buffer`. -/
def initial : State :=
  { Executor := none, message_buffer := [], heap := [], sent := [], closed := [] }

/-- Dereference of a `ClientConnection*`: the object stored at the address, if it is live. -/
def deref (s : State) (p : Nat) : Option ClientConnection :=
  (s.heap.get? p).join

/-- The call `close_socket(sock)`. -/
def close_socket (sock : Int) (s : State) : State :=
  { s with closed := s.closed ++ [sock] }

/-! ## Line framer -/

/-- The `while (true)` loop of `read_line`: `out_line` is the accumulator, the
second argument the bytes still to come on the socket. The result is the return
value, the final `out_line`, and the bytes left unread. -/
def read_line_loop : List Char → List Char → Bool × List Char × List Char
  | out_line, [] => (false, out_line, [])
  | out_line, c :: rest =>
    if c = '\n' then (true, out_line, rest)
    else if c ≠ '\r' then read_line_loop (out_line ++ [c]) rest
    else read_line_loop out_line rest

/-- The function `read_line(sock, out_line)`: clears `out_line`, then runs the loop. -/
def read_line (stream : List Char) : Bool × List Char × List Char :=
  read_line_loop [] stream

/-- The loop `while (read_line(client_socket, line)) lines.push_back(line);` of
`handle_connection`, bounded by a number of iterations. The result is `lines`
and the bytes left unread. -/
def read_lines_loop : Nat → List Char → List (List Char) → List (List Char) × List Char
  | 0, stream, lines => (lines, stream)
  | fuel + 1, stream, lines =>
    match read_line stream with
    | (true, line, rest) => read_lines_loop fuel rest (lines ++ [line])
    | (false, _, rest) => (lines, rest)

/-- The lines `handle_connection` collects from a connection, with the bytes left
unread. Every successful `read_line` consumes at least one byte, so
`stream.length + 1` iterations always reach the failing read. -/
def read_all_lines (stream : List Char) : List (List Char) × List Char :=
  read_lines_loop (stream.length + 1) stream []

/-- The record the specification describes for a segment (the bytes between two
newlines): a single carriage return is removed when it is the last byte of the
segment, nothing else is touched. -/
def spec_record (segment : List Char) : List Char :=
  if segment.getLast? = some '\r' then segment.dropLast else segment

/-! ## Relay router -/

/-- The search of `std::string::rfind(str, pos)`: the highest start index, not
above the given one, at which `str` occurs in `s`. -/
def rfind_from (s str : List Char) : Nat → Option Nat
  | 0 => if str.isPrefixOf s then some 0 else none
  | i + 1 => if str.isPrefixOf (s.drop (i + 1)) then some (i + 1) else rfind_from s str i

/-- The library call `s.rfind(str, pos)`; `none` is `npos`. -/
def rfind (s str : List Char) (pos : Nat) : Option Nat :=
  if str.length ≤ s.length then rfind_from s str (min pos (s.length - str.length)) else none

/-- The function `send_line_to_executor(line)`. -/
def send_line_to_executor (line : List Char) (s : State) : Option State :=
  match s.Executor with
  | none => some s
  | some p =>
    match deref s p with
    | none => none
    | some e => some { s with sent := s.sent ++ [(e.socket_fd, line ++ "\n".toList)] }

/-- The loop `for (const auto& l : lines) send_line_to_executor(l);`. -/
def forward_lines : List (List Char) → State → Option State
  | [], s => some s
  | l :: ls, s =>
    match send_line_to_executor l s with
    | none => none
    | some s1 => forward_lines ls s1

/-- What a call of `handle_connection` leaves behind: the new state, the bytes of
the connection it did not read, and the argument of the detached `executor_loop`
thread when one was started. -/
structure Outcome where
  state : State
  unread : List Char
  spawned : Option Nat
deriving DecidableEq, Repr

/-- The function `handle_connection(client_socket)`, run at clock value `now` on a
connection whose peer sends `stream`. -/
def handle_connection (now : Int) (client_socket : Int) (stream : List Char) (s : State) :
    Option Outcome :=
  match read_all_lines stream with
  | (lines, unread) =>
    match lines with
    | [] => some ⟨close_socket client_socket s, unread, none⟩
    | first :: _ =>
      if first = "executor".toList then
        match s.Executor with
        | some _ => some ⟨close_socket client_socket s, unread, none⟩
        | none =>
          some ⟨{ s with heap := s.heap ++ [some ⟨client_socket, now⟩],
                         Executor := some s.heap.length }, unread, some s.heap.length⟩
      else
        match s.Executor with
        | some _ =>
          match forward_lines lines s with
          | none => none
          | some s1 => some ⟨close_socket client_socket s1, unread, none⟩
        | none => some ⟨close_socket client_socket s, unread, none⟩

/-- The accept loop of `main` on a finite sequence of accepted connections, each
given as clock value, socket and incoming bytes, handled one after the other. The
result is the final state and the arguments of the `executor_loop` threads started. -/
def accept_loop : List (Int × Int × List Char) → State → Option (State × List Nat)
  | [], s => some (s, [])
  | (now, client_socket, stream) :: later, s =>
    match handle_connection now client_socket stream s with
    | none => none
    | some o =>
      match accept_loop later o.state with
      | none => none
      | some (s1, spawned) => some (s1, o.spawned.toList ++ spawned)

/-! ## Executor session -/

/-- The body of the `while` loop of `executor_loop` for one line, at clock value `now`. -/
def executor_loop_body (now : Int) (executor : Nat) (line : List Char) (s : State) :
    Option State :=
  if rfind line "heartbeat::".toList 0 = some 0 then
    match deref s executor with
    | none => none
    | some e => some { s with heap := s.heap.set executor (some { e with last_heartbeat := now }) }
  else some s

/-- The `while` loop of `executor_loop` and the `close_socket` after it, bounded by
a number of iterations; `clock k` is the clock value during the `k`-th iteration. -/
def executor_loop_iter (clock : Nat → Int) (executor : Nat) :
    Nat → Nat → List Char → State → Option (State × List Char)
  | 0, _, _, _ => none
  | fuel + 1, k, stream, s =>
    match read_line stream with
    | (true, line, rest) =>
      match executor_loop_body (clock k) executor line s with
      | none => none
      | some s1 => executor_loop_iter clock executor fuel (k + 1) rest s1
    | (false, _, rest) =>
      match deref s executor with
      | none => none
      | some e => some (close_socket e.socket_fd s, rest)

/-- The function `executor_loop(executor)` on a socket whose unread bytes are `stream`. -/
def executor_loop (clock : Nat → Int) (executor : Nat) (stream : List Char) (s : State) :
    Option (State × List Char) :=
  executor_loop_iter clock executor (stream.length + 1) 0 stream s

/-! ## Heartbeat monitor -/

/-- One iteration of the loop of `heartbeat_monitor`, after the sleep, at clock
value `now`; `duration_cast<seconds>` truncates towards zero. -/
def heartbeat_monitor_tick (ticks_per_sec : Nat) (now : Int) (s : State) : Option State :=
  match s.Executor with
  | none => some s
  | some p =>
    match deref s p with
    | none => none
    | some e =>
      if Int.tdiv (now - e.last_heartbeat) (ticks_per_sec : Int) > HEARTBEAT_TIMEOUT_SEC then
        some { close_socket e.socket_fd s with heap := s.heap.set p none, Executor := none }
      else some s

/-- The function `heartbeat_monitor` on a finite sequence of ticks, given by their clock values. -/
def heartbeat_monitor (ticks_per_sec : Nat) : List Int → State → Option State
  | [], s => some s
  | now :: later, s =>
    match heartbeat_monitor_tick ticks_per_sec now s with
    | none => none
    | some s1 => heartbeat_monitor ticks_per_sec later s1

/-- The bytes passed to `send` on socket `fd`, in order, in a record of `send` calls. -/
def written_to (fd : Int) (sent : List (Int × List Char)) : List Char :=
  ((sent.filter (fun x => x.1 = fd)).map (fun x => x.2)).flatten

/-- The registry invariant: a non-null `Executor` points to a live session. -/
def registry_live (s : State) : Bool :=
  match s.Executor with
  | none => true
  | some p => (deref s p).isSome

/-- The records of a stream in one pass: `out_line` is the record being
accumulated; a record is emitted at every newline, carriage returns are skipped,
and what remains at the end of the stream is not emitted. -/
def records_from : List Char → List Char → List (List Char)
  | _, [] => []
  | out_line, c :: rest =>
    if c = '\n' then out_line :: records_from [] rest
    else if c ≠ '\r' then records_from (out_line ++ [c]) rest
    else records_from out_line rest

/-! ## Line framer: lemmas -/

theorem read_line_loop_segment (segment rest : List Char) (h : '\n' ∉ segment) (out_line : List Char) :
    read_line_loop out_line (segment ++ '\n' :: rest)
      = (true, out_line ++ segment.filter (fun c => c ≠ '\r'), rest) := by
  induction segment generalizing out_line with
  | nil => simp [read_line_loop]
  | cons c cs ih =>
    have hc : c ≠ '\n' := fun e => h (by simp [e])
    have hcs : '\n' ∉ cs := fun e => h (by simp [e])
    by_cases hr : c = '\r'
    · simp [read_line_loop, hr, ih hcs]
    · simp [read_line_loop, hc, hr, ih hcs]

theorem read_line_loop_no_newline (tail : List Char) (h : '\n' ∉ tail) (out_line : List Char) :
    read_line_loop out_line tail = (false, out_line ++ tail.filter (fun c => c ≠ '\r'), []) := by
  induction tail generalizing out_line with
  | nil => simp [read_line_loop]
  | cons c cs ih =>
    have hc : c ≠ '\n' := fun e => h (by simp [e])
    have hcs : '\n' ∉ cs := fun e => h (by simp [e])
    by_cases hr : c = '\r'
    · simp [read_line_loop, hr, ih hcs]
    · simp [read_line_loop, hc, hr, ih hcs]

theorem read_line_loop_true (stream out_line : List Char)
    (h : (read_line_loop out_line stream).1 = true) :
    records_from out_line stream
        = (read_line_loop out_line stream).2.1 :: records_from [] (read_line_loop out_line stream).2.2
      ∧ (read_line_loop out_line stream).2.2.length < stream.length := by
  induction stream generalizing out_line with
  | nil => simp [read_line_loop] at h
  | cons c cs ih =>
    by_cases hn : c = '\n'
    · simp [read_line_loop, records_from, hn]
    · by_cases hr : c = '\r'
      · simp only [read_line_loop, records_from, hn, if_false] at h ⊢
        simp only [hr, if_false, ne_eq, not_true_eq_false] at h ⊢
        have := ih out_line h
        exact ⟨this.1, by simp only [List.length_cons]; omega⟩
      · simp only [read_line_loop, records_from, hn, if_false] at h ⊢
        simp only [hr, if_true, ne_eq, not_false_eq_true] at h ⊢
        have := ih (out_line ++ [c]) h
        exact ⟨this.1, by simp only [List.length_cons]; omega⟩

theorem read_line_loop_false (stream out_line : List Char)
    (h : (read_line_loop out_line stream).1 = false) :
    records_from out_line stream = [] ∧ (read_line_loop out_line stream).2.2 = [] := by
  induction stream generalizing out_line with
  | nil => simp [read_line_loop, records_from]
  | cons c cs ih =>
    by_cases hn : c = '\n'
    · simp [read_line_loop, hn] at h
    · by_cases hr : c = '\r'
      · simp only [read_line_loop, records_from, hn, if_false] at h ⊢
        simp only [hr, if_false, ne_eq, not_true_eq_false] at h ⊢
        exact ih out_line h
      · simp only [read_line_loop, records_from, hn, if_false] at h ⊢
        simp only [hr, if_true, ne_eq, not_false_eq_true] at h ⊢
        exact ih (out_line ++ [c]) h

theorem read_lines_loop_eq (fuel : Nat) (stream : List Char) (lines : List (List Char))
    (h : stream.length < fuel) :
    read_lines_loop fuel stream lines = (lines ++ records_from [] stream, []) := by
  induction fuel generalizing stream lines with
  | zero => omega
  | succ n ih =>
    rcases hrl : read_line stream with ⟨ok, line, rest⟩
    cases ok with
    | true =>
      have ht := read_line_loop_true stream [] (by rw [← read_line, hrl])
      rw [← read_line, hrl] at ht
      simp only [read_lines_loop, hrl]
      rw [ih rest (lines ++ [line]) (by have := ht.2; simp only at this; omega), ht.1]
      simp
    | false =>
      have hf := read_line_loop_false stream [] (by rw [← read_line, hrl])
      rw [← read_line, hrl] at hf
      simp only [read_lines_loop, hrl]
      simp only at hf
      rw [hf.1, hf.2]
      simp

theorem read_all_lines_eq (stream : List Char) :
    read_all_lines stream = (records_from [] stream, []) := by
  unfold read_all_lines
  rw [read_lines_loop_eq _ _ _ (Nat.lt_succ_self _)]
  simp

theorem records_from_length (stream out_line : List Char) :
    (records_from out_line stream).length = stream.count '\n' := by
  induction stream generalizing out_line with
  | nil => simp [records_from]
  | cons c cs ih =>
    by_cases hn : c = '\n'
    · simp [records_from, hn, ih]
    · by_cases hr : c = '\r'
      · simp [records_from, hr, ih, List.count_cons]
      · simp [records_from, hn, hr, ih, List.count_cons]

theorem records_from_no_newline (tail out_line : List Char) (h : '\n' ∉ tail) :
    records_from out_line tail = [] := by
  induction tail generalizing out_line with
  | nil => simp [records_from]
  | cons c cs ih =>
    have hc : c ≠ '\n' := fun e => h (by simp [e])
    have hcs : '\n' ∉ cs := fun e => h (by simp [e])
    by_cases hr : c = '\r'
    · simp [records_from, hr, ih _ hcs]
    · simp [records_from, hc, hr, ih _ hcs]

theorem records_from_append_tail (stream tail out_line : List Char) (h : '\n' ∉ tail) :
    records_from out_line (stream ++ '\n' :: tail) = records_from out_line (stream ++ ['\n']) := by
  induction stream generalizing out_line with
  | nil => simp [records_from, records_from_no_newline tail [] h]
  | cons c cs ih =>
    by_cases hn : c = '\n'
    · simp [records_from, hn, ih]
    · by_cases hr : c = '\r'
      · simp [records_from, hr, ih]
      · simp [records_from, hn, hr, ih]

/-! ## Line framer: claims -/

/-- C6, as the specification states it, fails: on the stream `a\rb\n` the call
`read_line` returns the record `ab`, while the record with only a carriage return
directly before the newline removed would be `a\rb`. -/
theorem read_line_inner_cr_counterexample :
    read_line "a\rb\n".toList = (true, "ab".toList, [])
      ∧ spec_record "a\rb".toList = "a\rb".toList
      ∧ (read_line "a\rb\n".toList).2.1 ≠ spec_record "a\rb".toList := by
  decide

/-- C6, amended: for a segment without newline followed by a newline, `read_line`
returns true, leaves exactly the bytes after that newline unread, and its record is
the segment with every carriage return removed, all other bytes kept in order. -/
theorem read_line_strips_every_cr (segment rest : List Char) (h : '\n' ∉ segment) :
    read_line (segment ++ '\n' :: rest) = (true, segment.filter (fun c => c ≠ '\r'), rest) := by
  unfold read_line
  rw [read_line_loop_segment segment rest h []]
  simp

theorem read_line_strips_every_cr_witness :
    '\n' ∉ "\ra\rb\r".toList
      ∧ read_line ("\ra\rb\r".toList ++ '\n' :: "c\n".toList) = (true, "ab".toList, "c\n".toList) :=
  ⟨by decide, read_line_strips_every_cr "\ra\rb\r".toList "c\n".toList (by decide)⟩

/-- C7: the lines collected by calling `read_line` until it fails are as many as
the stream has newline bytes; bytes after the last newline add no record; a stream
without newline gives the empty batch; `foo\r\nbar\n` gives `foo`, `bar`. -/
theorem read_all_lines_no_partial_record (stream tail : List Char) (h : '\n' ∉ tail) :
    (read_all_lines stream).1.length = stream.count '\n'
      ∧ (read_all_lines (stream ++ '\n' :: tail)).1 = (read_all_lines (stream ++ ['\n'])).1
      ∧ (read_all_lines (stream ++ '\n' :: tail)).1.length = stream.count '\n' + 1
      ∧ (read_all_lines tail).1 = []
      ∧ (read_all_lines "foo\r\nbar\n".toList).1 = ["foo".toList, "bar".toList] := by
  refine ⟨?_, ?_, ?_, ?_, by decide⟩
  · rw [read_all_lines_eq]; exact records_from_length stream []
  · rw [read_all_lines_eq, read_all_lines_eq]; exact records_from_append_tail stream tail [] h
  · rw [read_all_lines_eq]
    simp only [records_from_length, List.count_append, List.count_cons_self]
    have : List.count '\n' tail = 0 := List.count_eq_zero.mpr h
    omega
  · rw [read_all_lines_eq]; exact records_from_no_newline tail [] h

theorem read_all_lines_no_partial_record_witness :
    '\n' ∉ "baz\r".toList
      ∧ (read_all_lines "foo\r\nbar".toList).1.length = 1
      ∧ (read_all_lines ("foo\r\nbar".toList ++ '\n' :: "baz\r".toList)).1
          = ["foo".toList, "bar".toList]
      ∧ (read_all_lines "baz\r".toList).1 = [] :=
  have h := read_all_lines_no_partial_record "foo\r\nbar".toList "baz\r".toList (by decide)
  ⟨by decide, h.1.trans (by decide), h.2.1.trans (by decide), h.2.2.2.1⟩

/-! ## Relay router: lemmas -/

theorem handle_connection_eq (now client_socket : Int) (stream : List Char) (s : State) :
    handle_connection now client_socket stream s =
      match records_from [] stream with
      | [] => some ⟨close_socket client_socket s, [], none⟩
      | first :: others =>
        if first = "executor".toList then
          match s.Executor with
          | some _ => some ⟨close_socket client_socket s, [], none⟩
          | none =>
            some ⟨{ s with heap := s.heap ++ [some ⟨client_socket, now⟩],
                           Executor := some s.heap.length }, [], some s.heap.length⟩
        else
          match s.Executor with
          | some _ =>
            match forward_lines (first :: others) s with
            | none => none
            | some s1 => some ⟨close_socket client_socket s1, [], none⟩
          | none => some ⟨close_socket client_socket s, [], none⟩ := by
  simp only [handle_connection, read_all_lines_eq]
  cases records_from [] stream <;> rfl

theorem handle_connection_unread (now client_socket : Int) (stream : List Char) (s : State)
    (o : Outcome) (h : handle_connection now client_socket stream s = some o) : o.unread = [] := by
  rw [handle_connection_eq] at h
  split at h
  · cases h; rfl
  · split at h
    · split at h <;> cases h <;> rfl
    · split at h
      · split at h
        · cases h
        · cases h; rfl
      · cases h; rfl

theorem handle_connection_executor_first (now client_socket : Int) (stream : List Char)
    (s : State) (h : (read_all_lines stream).1.head? = some "executor".toList) :
    handle_connection now client_socket stream s =
      match s.Executor with
      | some _ => some ⟨close_socket client_socket s, [], none⟩
      | none =>
        some ⟨{ s with heap := s.heap ++ [some ⟨client_socket, now⟩],
                       Executor := some s.heap.length }, [], some s.heap.length⟩ := by
  rw [read_all_lines_eq] at h
  rw [handle_connection_eq]
  cases hr : records_from [] stream with
  | nil => rw [hr] at h; simp at h
  | cons first others =>
    rw [hr] at h
    simp only [List.head?_cons, Option.some.injEq] at h
    simp only [h, if_true]

theorem forward_lines_registered (lines : List (List Char)) (s : State) (p : Nat)
    (e : ClientConnection) (hreg : s.Executor = some p) (hlive : deref s p = some e) :
    forward_lines lines s
      = some { s with sent := s.sent ++ lines.map (fun l => (e.socket_fd, l ++ "\n".toList)) } := by
  induction lines generalizing s with
  | nil => simp [forward_lines]
  | cons l ls ih =>
    obtain ⟨ex, mb, heap, sent, closed⟩ := s
    simp only at hreg
    subst hreg
    have hlive2 :
        deref ⟨some p, mb, heap, sent ++ [(e.socket_fd, l ++ "\n".toList)], closed⟩ p = some e :=
      hlive
    simp only [forward_lines, send_line_to_executor, hlive]
    rw [ih _ rfl hlive2]
    simp

theorem written_to_append (fd : Int) (a b : List (Int × List Char)) :
    written_to fd (a ++ b) = written_to fd a ++ written_to fd b := by
  simp [written_to]

theorem written_to_forwarded (fd : Int) (nl : List Char) (lines : List (List Char)) :
    written_to fd (lines.map (fun l => (fd, l ++ nl))) = (lines.map (fun l => l ++ nl)).flatten := by
  induction lines with
  | nil => simp [written_to]
  | cons l ls ih =>
    simp only [written_to] at ih
    simp [written_to, List.filter_cons, ih]

theorem accept_loop_rejects (attempts : List (Int × Int × List Char)) (s : State) (q : Nat)
    (hreg : s.Executor = some q)
    (hall : ∀ a ∈ attempts, (read_all_lines a.2.2).1.head? = some "executor".toList) :
    accept_loop attempts s
      = some ({ s with closed := s.closed ++ attempts.map (fun a => a.2.1) }, []) := by
  induction attempts generalizing s with
  | nil => simp [accept_loop]
  | cons a rest ih =>
    obtain ⟨now, client_socket, stream⟩ := a
    obtain ⟨ex, mb, heap, sent, closed⟩ := s
    simp only at hreg
    subst hreg
    have h1 := hall (now, client_socket, stream) (by simp)
    simp only [accept_loop, handle_connection_executor_first now client_socket stream _ h1]
    rw [ih (close_socket client_socket ⟨some q, mb, heap, sent, closed⟩) rfl
      (fun a ha => hall a (by simp [ha]))]
    simp [close_socket]

theorem registry_live_initial : registry_live initial = true := rfl

theorem handle_connection_defined (now client_socket : Int) (stream : List Char) (s : State)
    (hwf : registry_live s = true) :
    ∃ o, handle_connection now client_socket stream s = some o
      ∧ registry_live o.state = true := by
  obtain ⟨ex, mb, heap, sent, closed⟩ := s
  rw [handle_connection_eq]
  cases records_from [] stream with
  | nil => exact ⟨_, rfl, hwf⟩
  | cons first others =>
    simp only
    by_cases hf : first = "executor".toList
    · simp only [hf, if_true]
      cases ex with
      | none =>
        refine ⟨_, rfl, ?_⟩
        simp [registry_live, deref]
      | some q => exact ⟨_, rfl, hwf⟩
    · simp only [hf, if_false]
      cases ex with
      | none => exact ⟨_, rfl, hwf⟩
      | some q =>
        obtain ⟨e, he⟩ : ∃ e, deref ⟨some q, mb, heap, sent, closed⟩ q = some e :=
          Option.isSome_iff_exists.mp hwf
        simp only [forward_lines_registered (first :: others) _ q e rfl he]
        exact ⟨_, rfl, hwf⟩

/-! ## Relay router: claims -/

/-- C1: for a connection whose first line is `executor`, `handle_connection`
registers it (a new session holding its socket and the current time, and a started
`executor_loop`) exactly when no executor is registered; otherwise it only closes
the new socket, forwards nothing and leaves the registered session untouched. Over
a sequence of such attempts at most one `executor_loop` is started, none when an
executor was already registered. -/
theorem executor_registration_exclusive (now client_socket : Int) (stream : List Char)
    (s : State) (attempts : List (Int × Int × List Char))
    (hfirst : (read_all_lines stream).1.head? = some "executor".toList)
    (hall : ∀ a ∈ attempts, (read_all_lines a.2.2).1.head? = some "executor".toList) :
    (∃ o, handle_connection now client_socket stream s = some o
      ∧ ((o.spawned = some s.heap.length ∧ o.state.Executor = some s.heap.length
            ∧ deref o.state s.heap.length = some ⟨client_socket, now⟩) ↔ s.Executor = none)
      ∧ (s.Executor = none →
          o.state = { s with heap := s.heap ++ [some ⟨client_socket, now⟩],
                             Executor := some s.heap.length })
      ∧ (s.Executor ≠ none →
          o.spawned = none ∧ o.state = { s with closed := s.closed ++ [client_socket] }
            ∧ o.state.sent = s.sent ∧ o.state.Executor = s.Executor ∧ o.state.heap = s.heap))
    ∧ (∃ s1 spawned, accept_loop attempts s = some (s1, spawned) ∧ spawned.length ≤ 1
      ∧ (s.Executor ≠ none →
          spawned = [] ∧ s1.Executor = s.Executor ∧ s1.heap = s.heap ∧ s1.sent = s.sent)) := by
  obtain ⟨ex, mb, heap, sent, closed⟩ := s
  constructor
  · rw [handle_connection_executor_first now client_socket stream _ hfirst]
    cases ex with
    | none =>
      exact ⟨_, rfl, (by simp [deref]), (fun _ => rfl), (fun h => absurd rfl h)⟩
    | some q =>
      refine ⟨_, rfl, ?_, (fun h => by cases h), (fun _ => ⟨rfl, rfl, rfl, rfl, rfl⟩)⟩
      simp
  · cases ex with
    | some q =>
      rw [accept_loop_rejects attempts _ q rfl hall]
      exact ⟨_, _, rfl, (by simp), (fun _ => ⟨rfl, rfl, rfl, rfl⟩)⟩
    | none =>
      cases attempts with
      | nil => exact ⟨_, [], rfl, (by simp), (fun h => absurd rfl h)⟩
      | cons a rest =>
        obtain ⟨now1, fd1, stream1⟩ := a
        have h1 := hall (now1, fd1, stream1) (by simp)
        simp only [accept_loop, handle_connection_executor_first now1 fd1 stream1 _ h1]
        rw [accept_loop_rejects rest _ heap.length rfl (fun a ha => hall a (by simp [ha]))]
        exact ⟨_, _, rfl, (by simp), (fun h => absurd rfl h)⟩

theorem executor_registration_exclusive_witness :
    (read_all_lines "executor\r\nheartbeat::1\n".toList).1.head? = some "executor".toList
      ∧ (∃ o, handle_connection 100 5 "executor\r\nheartbeat::1\n".toList initial = some o
          ∧ o.state.Executor = some 0 ∧ deref o.state 0 = some ⟨5, 100⟩)
      ∧ (∃ s1 spawned,
          accept_loop [(100, 5, "executor\n".toList), (101, 6, "executor\nx\n".toList)] initial
            = some (s1, spawned) ∧ spawned.length ≤ 1) :=
  have h := executor_registration_exclusive 100 5 "executor\r\nheartbeat::1\n".toList initial
    [(100, 5, "executor\n".toList), (101, 6, "executor\nx\n".toList)] (by decide) (by decide)
  ⟨by decide,
    h.1.elim (fun o ho => ⟨o, ho.1, (ho.2.1.mpr rfl).2⟩),
    h.2.elim (fun s1 hs => hs.elim (fun spawned hsp => ⟨s1, spawned, hsp.1, hsp.2.1⟩))⟩

/-- C2: for a non-empty batch whose first line is not `executor`, handled while an
executor is registered, `handle_connection` passes to `send` on the executor's
socket each line of the batch followed by one newline, once each and in order, so
the bytes written there are the lines, each newline-terminated, concatenated. -/
theorem forwarding_order (now client_socket : Int) (stream : List Char) (s : State)
    (p : Nat) (e : ClientConnection) (first : List Char) (others : List (List Char))
    (hbatch : (read_all_lines stream).1 = first :: others)
    (hfirst : first ≠ "executor".toList)
    (hreg : s.Executor = some p) (hlive : deref s p = some e) :
    ∃ o, handle_connection now client_socket stream s = some o
      ∧ o.state.sent
          = s.sent ++ (first :: others).map (fun l => (e.socket_fd, l ++ "\n".toList))
      ∧ written_to e.socket_fd o.state.sent
          = written_to e.socket_fd s.sent
              ++ ((first :: others).map (fun l => l ++ "\n".toList)).flatten
      ∧ o.state.closed = s.closed ++ [client_socket]
      ∧ o.state.Executor = s.Executor ∧ o.state.heap = s.heap
      ∧ o.state.message_buffer = s.message_buffer ∧ o.spawned = none := by
  rw [read_all_lines_eq] at hbatch
  simp only at hbatch
  obtain ⟨ex, mb, heap, sent, closed⟩ := s
  simp only at hreg
  subst hreg
  rw [handle_connection_eq, hbatch]
  simp only [hfirst, if_false, forward_lines_registered (first :: others) _ p e rfl hlive]
  refine ⟨_, rfl, rfl, ?_, rfl, rfl, rfl, rfl, rfl⟩
  simp only [close_socket]
  rw [written_to_append, written_to_forwarded]

theorem forwarding_order_witness :
    (read_all_lines "a\nb\nc\n".toList).1 = "a".toList :: ["b".toList, "c".toList]
      ∧ (∃ o, handle_connection 7 6 "a\nb\nc\n".toList
                { initial with Executor := some 0, heap := [some ⟨5, 3⟩] } = some o
          ∧ o.state.sent = [(5, "a\n".toList), (5, "b\n".toList), (5, "c\n".toList)]
          ∧ written_to 5 o.state.sent = "a\nb\nc\n".toList) :=
  have h := forwarding_order 7 6 "a\nb\nc\n".toList
    { initial with Executor := some 0, heap := [some ⟨5, 3⟩] } 0 ⟨5, 3⟩
    "a".toList ["b".toList, "c".toList] (by decide) (by decide) rfl (by decide)
  ⟨by decide, h.elim (fun o ho => ⟨o, ho.1, ho.2.1.trans (by decide), ho.2.2.1.trans (by decide)⟩)⟩

/-- C3: a batch from an ordinary client (first line not `executor`, or no line at
all) handled while no executor is registered only closes the client socket: nothing
is sent, `message_buffer` and the heap are unchanged, the registry stays empty, and
the resulting state does not depend on the lines, so that after a later registration
nothing has been sent either. -/
theorem drop_when_absent (now client_socket : Int) (stream : List Char) (s : State)
    (now2 client2 : Int) (stream2 : List Char)
    (hfirst : (read_all_lines stream).1.head? ≠ some "executor".toList)
    (hnone : s.Executor = none)
    (hlater : (read_all_lines stream2).1.head? = some "executor".toList) :
    ∃ o, handle_connection now client_socket stream s = some o
      ∧ o.state = { s with closed := s.closed ++ [client_socket] }
      ∧ o.state.sent = s.sent ∧ o.state.message_buffer = s.message_buffer
      ∧ o.state.Executor = none ∧ o.spawned = none
      ∧ ∃ o2, handle_connection now2 client2 stream2 o.state = some o2
          ∧ o2.state.Executor = some s.heap.length
          ∧ o2.state.sent = s.sent ∧ o2.state.message_buffer = s.message_buffer := by
  have h1 : handle_connection now client_socket stream s
      = some ⟨{ s with closed := s.closed ++ [client_socket] }, [], none⟩ := by
    rw [read_all_lines_eq] at hfirst
    rw [handle_connection_eq]
    obtain ⟨ex, mb, heap, sent, closed⟩ := s
    simp only at hnone
    subst hnone
    cases hr : records_from [] stream with
    | nil => rfl
    | cons first others =>
      rw [hr] at hfirst
      have hne : first ≠ "executor".toList := fun h => hfirst (by simp [h])
      simp only [hne, if_false]
      rfl
  refine ⟨_, h1, rfl, rfl, rfl, hnone, rfl, ?_⟩
  rw [handle_connection_executor_first now2 client2 stream2 _ hlater]
  obtain ⟨ex, mb, heap, sent, closed⟩ := s
  simp only at hnone
  subst hnone
  exact ⟨_, rfl, rfl, rfl, rfl⟩

theorem drop_when_absent_witness :
    (read_all_lines "x\n".toList).1.head? ≠ some "executor".toList
      ∧ initial.Executor = none
      ∧ (read_all_lines "executor\n".toList).1.head? = some "executor".toList
      ∧ (∃ o, handle_connection 1 4 "x\n".toList initial = some o
          ∧ o.state = { initial with closed := [4] }
          ∧ ∃ o2, handle_connection 2 5 "executor\n".toList o.state = some o2
              ∧ o2.state.sent = []) :=
  have h := drop_when_absent 1 4 "x\n".toList initial 2 5 "executor\n".toList
    (by decide) rfl (by decide)
  ⟨by decide, rfl, by decide,
    h.elim (fun o ho => ⟨o, ho.1, ho.2.1,
      ho.2.2.2.2.2.2.elim (fun o2 ho2 => ⟨o2, ho2.1, ho2.2.2.1⟩)⟩)⟩

/-! ## Executor session -/

theorem rfind_zero_iff_starts_with (line str : List Char) :
    rfind line str 0 = some 0 ↔ str <+: line := by
  unfold rfind
  by_cases hlen : str.length ≤ line.length
  · simp [hlen, rfind_from]
  · have hnp : ¬ str <+: line := fun hp => hlen hp.length_le
    simp [hlen, hnp]

theorem deref_set_self (s : State) (p : Nat) (e : ClientConnection) (v : Option ClientConnection)
    (hlive : deref s p = some e) : deref { s with heap := s.heap.set p v } p = v := by
  have hlt : p < s.heap.length := by
    by_contra hge
    have : s.heap[p]? = none := List.getElem?_eq_none (by omega)
    simp [deref, this] at hlive
  simp [deref, List.getElem?_set, hlt]

theorem deref_set_other (s : State) (p q : Nat) (v : Option ClientConnection) (hne : q ≠ p) :
    deref { s with heap := s.heap.set p v } q = deref s q := by
  simp [deref, List.getElem?_set, Ne.symm hne]

theorem executor_loop_body_live (now : Int) (executor : Nat) (line : List Char) (s s1 : State)
    (hwf : registry_live s = true) (h : executor_loop_body now executor line s = some s1) :
    registry_live s1 = true ∧ s1.Executor = s.Executor := by
  unfold executor_loop_body at h
  split at h
  · cases hd : deref s executor with
    | none => simp [hd] at h
    | some e =>
      simp only [hd, Option.some.injEq] at h
      subst h
      refine ⟨?_, rfl⟩
      cases hex : s.Executor with
      | none => simp [registry_live, hex]
      | some p =>
        have hw : (deref s p).isSome = true := by simpa [registry_live, hex] using hwf
        simp only [registry_live, hex]
        by_cases hp : p = executor
        · subst hp
          exact (congrArg Option.isSome (deref_set_self s p e _ hd)).trans rfl
        · exact (congrArg Option.isSome (deref_set_other s executor p _ hp)).trans hw
  · cases h
    exact ⟨hwf, rfl⟩

theorem executor_loop_iter_line (clock : Nat → Int) (executor fuel k : Nat)
    (segment rest : List Char) (s : State) (h : '\n' ∉ segment) :
    executor_loop_iter clock executor (fuel + 1) k (segment ++ '\n' :: rest) s
      = (executor_loop_body (clock k) executor (segment.filter (fun c => c ≠ '\r')) s).bind
          (fun s1 => executor_loop_iter clock executor fuel (k + 1) rest s1) := by
  have hr : read_line (segment ++ '\n' :: rest)
      = (true, segment.filter (fun c => c ≠ '\r'), rest) := by
    unfold read_line
    rw [read_line_loop_segment segment rest h []]
    simp
  simp only [executor_loop_iter, hr]
  cases executor_loop_body (clock k) executor (segment.filter (fun c => c ≠ '\r')) s <;> rfl

theorem executor_loop_end_of_stream (clock : Nat → Int) (executor : Nat) (tail : List Char)
    (s : State) (h : '\n' ∉ tail) :
    executor_loop clock executor tail s
      = (deref s executor).map (fun e => (close_socket e.socket_fd s, [])) := by
  have hrl : read_line tail = (false, tail.filter (fun c => c ≠ '\r'), []) := by
    unfold read_line
    rw [read_line_loop_no_newline tail h []]
    simp
  simp only [executor_loop, executor_loop_iter, hrl]
  cases deref s executor <;> rfl

theorem executor_loop_body_registry (now : Int) (executor : Nat) (line : List Char)
    (s s1 : State) (h : executor_loop_body now executor line s = some s1) :
    s1.Executor = s.Executor ∧ s1.closed = s.closed ∧ s1.sent = s.sent := by
  unfold executor_loop_body at h
  split at h
  · cases hd : deref s executor with
    | none => simp [hd] at h
    | some e =>
      simp only [hd, Option.some.injEq] at h
      subst h
      exact ⟨rfl, rfl, rfl⟩
  · cases h
    exact ⟨rfl, rfl, rfl⟩

theorem executor_loop_iter_registry (clock : Nat → Int) (executor fuel k : Nat)
    (stream rest : List Char) (s s1 : State)
    (h : executor_loop_iter clock executor fuel k stream s = some (s1, rest)) :
    s1.Executor = s.Executor ∧ s1.sent = s.sent := by
  induction fuel generalizing k stream s with
  | zero => simp [executor_loop_iter] at h
  | succ n ih =>
    rcases hrl : read_line stream with ⟨ok, line, unread⟩
    cases ok with
    | true =>
      simp only [executor_loop_iter, hrl] at h
      cases hb : executor_loop_body (clock k) executor line s with
      | none => simp [hb] at h
      | some s2 =>
        simp only [hb] at h
        have h2 := executor_loop_body_registry _ _ _ _ _ hb
        have h3 := ih _ _ _ h
        exact ⟨h3.1.trans h2.1, h3.2.trans h2.2.2⟩
    | false =>
      simp only [executor_loop_iter, hrl] at h
      cases hd : deref s executor with
      | none => simp [hd] at h
      | some e =>
        simp only [hd, Option.some.injEq, Prod.mk.injEq] at h
        obtain ⟨h1, _⟩ := h
        subst h1
        exact ⟨rfl, rfl⟩

theorem promoted_session_reads_nothing (clock : Nat → Int) (now client_socket : Int)
    (stream : List Char) (s : State) (o : Outcome) (p : Nat)
    (h : handle_connection now client_socket stream s = some o) (hp : o.spawned = some p) :
    o.unread = [] ∧ deref o.state p = some ⟨client_socket, now⟩
      ∧ executor_loop clock p o.unread o.state = some (close_socket client_socket o.state, []) := by
  have hu := handle_connection_unread now client_socket stream s o h
  have hd : deref o.state p = some ⟨client_socket, now⟩ := by
    rw [handle_connection_eq] at h
    split at h
    · cases h; cases hp
    · split at h
      · split at h
        · cases h; cases hp
        · cases h
          cases hp
          simp [deref]
      · split at h
        · split at h
          · cases h
          · cases h; cases hp
        · cases h; cases hp
  refine ⟨hu, hd, ?_⟩
  rw [hu, executor_loop_end_of_stream clock p [] o.state (by simp), hd]
  rfl

theorem heartbeat_monitor_tick_defined (ticks_per_sec : Nat) (now : Int) (s : State)
    (hwf : registry_live s = true) :
    ∃ s1, heartbeat_monitor_tick ticks_per_sec now s = some s1 ∧ registry_live s1 = true := by
  unfold heartbeat_monitor_tick
  cases hex : s.Executor with
  | none => exact ⟨s, rfl, hwf⟩
  | some p =>
    simp only [registry_live, hex] at hwf
    obtain ⟨e, he⟩ := Option.isSome_iff_exists.mp hwf
    simp only [he]
    split
    · exact ⟨_, rfl, rfl⟩
    · refine ⟨s, rfl, ?_⟩
      simp [registry_live, hex, he]

/-- C8: for a line read by `executor_loop` on a live session, the loop body sets
`last_heartbeat` to the current time when the line starts with `heartbeat::`
(whatever follows) and changes nothing at all otherwise; in both cases nothing is
sent or closed, and the registry pointer, the session's socket, the other sessions
and `message_buffer` are unchanged. -/
theorem heartbeat_recognition (now : Int) (executor : Nat) (line : List Char) (s : State)
    (e : ClientConnection) (hlive : deref s executor = some e) :
    ∃ s1, executor_loop_body now executor line s = some s1
      ∧ ("heartbeat::".toList <+: line →
          deref s1 executor = some { e with last_heartbeat := now })
      ∧ (¬ "heartbeat::".toList <+: line → s1 = s)
      ∧ (deref s1 executor ≠ deref s executor → "heartbeat::".toList <+: line)
      ∧ s1.Executor = s.Executor ∧ s1.sent = s.sent ∧ s1.closed = s.closed
      ∧ s1.message_buffer = s.message_buffer
      ∧ (deref s1 executor).map (fun c => c.socket_fd) = some e.socket_fd
      ∧ ∀ q, q ≠ executor → deref s1 q = deref s q := by
  unfold executor_loop_body
  by_cases hp : "heartbeat::".toList <+: line
  · rw [if_pos ((rfind_zero_iff_starts_with _ _).mpr hp)]
    simp only [hlive]
    refine ⟨_, rfl, fun _ => deref_set_self s executor e _ hlive, fun h => absurd hp h,
      fun _ => hp, rfl, rfl, rfl, rfl, ?_, fun q hq => deref_set_other s executor q _ hq⟩
    rw [deref_set_self s executor e _ hlive]
    rfl
  · rw [if_neg (fun h => hp ((rfind_zero_iff_starts_with _ _).mp h))]
    exact ⟨s, rfl, fun h => absurd h hp, fun _ => rfl, fun h => absurd rfl h, rfl, rfl, rfl,
      rfl, by rw [hlive]; rfl, fun _ _ => rfl⟩

theorem heartbeat_recognition_witness :
    deref { initial with Executor := some 0, heap := [some ⟨5, 3⟩] } 0 = some ⟨5, 3⟩
      ∧ (∃ s1, executor_loop_body 9 0 "heartbeat::".toList
                { initial with Executor := some 0, heap := [some ⟨5, 3⟩] } = some s1
          ∧ deref s1 0 = some ⟨5, 9⟩ ∧ s1.sent = [] ∧ s1.Executor = some 0) :=
  have h := heartbeat_recognition 9 0 "heartbeat::".toList
    { initial with Executor := some 0, heap := [some ⟨5, 3⟩] } ⟨5, 3⟩ (by decide)
  ⟨by decide, h.elim (fun s1 hs => ⟨s1, hs.1, hs.2.1 (by decide), hs.2.2.2.2.2.1, hs.2.2.2.2.1⟩)⟩

/-- C4, evaluated on the code: after the connection on socket 5 registers as
executor and its `executor_loop` reaches the end of the stream, the socket is closed
but `Executor` still points to the session, and the next connection whose first
line is `executor` (socket 6) is rejected and closed. -/
theorem executor_disconnect_keeps_registration :
    handle_connection 100 5 "executor\n".toList initial
        = some ⟨{ initial with Executor := some 0, heap := [some ⟨5, 100⟩] }, [], some 0⟩
      ∧ executor_loop (fun _ => 101) 0 []
            { initial with Executor := some 0, heap := [some ⟨5, 100⟩] }
          = some ({ initial with Executor := some 0, heap := [some ⟨5, 100⟩], closed := [5] }, [])
      ∧ handle_connection 102 6 "executor\n".toList
            { initial with Executor := some 0, heap := [some ⟨5, 100⟩], closed := [5] }
          = some ⟨{ initial with Executor := some 0, heap := [some ⟨5, 100⟩], closed := [5, 6] },
              [], none⟩ := by
  decide

/-- C5, evaluated on the code: the connection on socket 5 sends `executor` and then
`heartbeat::1`; `handle_connection` reads both lines before registering at time 100
and leaves nothing unread, so the `executor_loop` it starts processes no line: at
time 200 it only closes the socket, and `last_heartbeat` is still 100. -/
theorem executor_later_lines_not_processed :
    (read_all_lines "executor\nheartbeat::1\n".toList).1
        = ["executor".toList, "heartbeat::1".toList]
      ∧ handle_connection 100 5 "executor\nheartbeat::1\n".toList initial
        = some ⟨{ initial with Executor := some 0, heap := [some ⟨5, 100⟩] }, [], some 0⟩
      ∧ executor_loop (fun _ => 200) 0 []
            { initial with Executor := some 0, heap := [some ⟨5, 100⟩] }
          = some ({ initial with Executor := some 0, heap := [some ⟨5, 100⟩], closed := [5] }, [])
      ∧ executor_loop_body 200 0 "heartbeat::1".toList
            { initial with Executor := some 0, heap := [some ⟨5, 100⟩] }
          = some { initial with Executor := some 0, heap := [some ⟨5, 200⟩] } := by
  decide

/-! ## Heartbeat monitor -/

theorem tdiv_le_of_le_mul (d : Int) (n : Nat) (h : d ≤ 20 * (n : Int)) :
    Int.tdiv d (n : Int) ≤ 20 := by
  rcases Nat.eq_zero_or_pos n with hn | hn
  · subst hn; simp
  · have hn0 : (0 : Int) < (n : Int) := by exact_mod_cast hn
    rcases lt_or_le d 0 with hd | hd
    · have h1 : 0 ≤ Int.tdiv (-d) (n : Int) := Int.tdiv_nonneg (by omega) (by omega)
      rw [Int.neg_tdiv] at h1
      omega
    · rw [Int.tdiv_eq_ediv hd (by omega)]
      have : d / (n : Int) < 21 := Int.ediv_lt_of_lt_mul hn0 (by omega)
      omega

theorem lt_tdiv_of_mul_le (d : Int) (n : Nat) (hn : 0 < n) (h : 21 * (n : Int) ≤ d) :
    20 < Int.tdiv d (n : Int) := by
  have hn0 : (0 : Int) < (n : Int) := by exact_mod_cast hn
  rw [Int.tdiv_eq_ediv (by omega) (by omega)]
  have : 21 ≤ d / (n : Int) := Int.le_ediv_of_mul_le hn0 (by omega)
  omega

/-- C9, as the specification states it, fails: with a nanosecond clock and the
last heartbeat at time 0, a tick at 20.5 seconds finds an elapsed time above 20
seconds, yet truncation to whole seconds gives 20 and the executor is kept. -/
theorem timeout_fraction_counterexample :
    (20500000000 : Int) - 0 > HEARTBEAT_TIMEOUT_SEC * 1000000000
      ∧ heartbeat_monitor_tick 1000000000 20500000000
            { initial with Executor := some 0, heap := [some ⟨5, 0⟩] }
          = some { initial with Executor := some 0, heap := [some ⟨5, 0⟩] } := by
  decide

/-- C9, amended: at a tick with an executor registered, if `now - last_heartbeat`
is at least 21 seconds (its whole number of seconds exceeds 20), the tick evicts the
executor: its socket is closed, the session deleted and the registry empty. -/
theorem timeout_eviction (ticks_per_sec : Nat) (now : Int) (s : State) (p : Nat)
    (e : ClientConnection) (hclock : 0 < ticks_per_sec)
    (hreg : s.Executor = some p) (hlive : deref s p = some e)
    (hstale : (HEARTBEAT_TIMEOUT_SEC + 1) * (ticks_per_sec : Int) ≤ now - e.last_heartbeat) :
    ∃ s1, heartbeat_monitor_tick ticks_per_sec now s = some s1
      ∧ s1.Executor = none ∧ s1.closed = s.closed ++ [e.socket_fd] ∧ deref s1 p = none
      ∧ s1.sent = s.sent ∧ s1.message_buffer = s.message_buffer := by
  have hgt : Int.tdiv (now - e.last_heartbeat) (ticks_per_sec : Int) > HEARTBEAT_TIMEOUT_SEC := by
    unfold HEARTBEAT_TIMEOUT_SEC at hstale ⊢
    exact lt_tdiv_of_mul_le _ _ hclock (by omega)
  simp only [heartbeat_monitor_tick, hreg, hlive, hgt, if_true]
  exact ⟨_, rfl, rfl, rfl, deref_set_self (close_socket e.socket_fd s) p e none hlive, rfl, rfl⟩

theorem timeout_eviction_witness :
    (HEARTBEAT_TIMEOUT_SEC + 1) * ((1000000000 : Nat) : Int) ≤ 21000000000 - 0
      ∧ (∃ s1, heartbeat_monitor_tick 1000000000 21000000000
                { initial with Executor := some 0, heap := [some ⟨5, 0⟩] } = some s1
          ∧ s1.Executor = none ∧ s1.closed = [5]) :=
  have h := timeout_eviction 1000000000 21000000000
    { initial with Executor := some 0, heap := [some ⟨5, 0⟩] } 0 ⟨5, 0⟩
    (by decide) rfl (by decide) (by decide)
  ⟨by decide, h.elim (fun s1 hs => ⟨s1, hs.1, hs.2.1, hs.2.2.1⟩)⟩

/-- C10: a tick of `heartbeat_monitor` returns the state unchanged when no executor
is registered, and when one is registered with `now - last_heartbeat` at most 20
seconds; hence a run of ticks on an empty registry, or of ticks that all find the
elapsed time within 20 seconds, leaves the state unchanged as well. -/
theorem monitor_tick_keeps_live_executor (ticks_per_sec : Nat) (now : Int) (later : List Int)
    (s : State)
    (h : s.Executor = none ∨ ∃ p e, s.Executor = some p ∧ deref s p = some e
          ∧ now - e.last_heartbeat ≤ HEARTBEAT_TIMEOUT_SEC * (ticks_per_sec : Int)
          ∧ ∀ t ∈ later, t - e.last_heartbeat ≤ HEARTBEAT_TIMEOUT_SEC * (ticks_per_sec : Int)) :
    heartbeat_monitor_tick ticks_per_sec now s = some s
      ∧ heartbeat_monitor ticks_per_sec (now :: later) s = some s := by
  have tick : ∀ t, (s.Executor = none ∨ ∃ p e, s.Executor = some p ∧ deref s p = some e
      ∧ t - e.last_heartbeat ≤ HEARTBEAT_TIMEOUT_SEC * (ticks_per_sec : Int)) →
      heartbeat_monitor_tick ticks_per_sec t s = some s := by
    intro t ht
    rcases ht with hn | ⟨p, e, hreg, hlive, hle⟩
    · simp [heartbeat_monitor_tick, hn]
    · have hng : ¬ Int.tdiv (t - e.last_heartbeat) (ticks_per_sec : Int) > HEARTBEAT_TIMEOUT_SEC := by
        unfold HEARTBEAT_TIMEOUT_SEC at hle ⊢
        have := tdiv_le_of_le_mul _ _ hle
        omega
      simp only [heartbeat_monitor_tick, hreg, hlive, hng, if_false]
  have run : ∀ ts : List Int, (∀ t ∈ ts, heartbeat_monitor_tick ticks_per_sec t s = some s) →
      heartbeat_monitor ticks_per_sec ts s = some s := by
    intro ts
    induction ts with
    | nil => intro _; rfl
    | cons t rest ih =>
      intro hts
      simp only [heartbeat_monitor, hts t (by simp)]
      exact ih (fun u hu => hts u (by simp [hu]))
  have hnow : heartbeat_monitor_tick ticks_per_sec now s = some s := by
    apply tick
    rcases h with hn | ⟨p, e, hreg, hlive, hle, _⟩
    · exact Or.inl hn
    · exact Or.inr ⟨p, e, hreg, hlive, hle⟩
  refine ⟨hnow, run _ ?_⟩
  intro t ht
  rcases List.mem_cons.mp ht with rfl | ht
  · exact hnow
  · apply tick
    rcases h with hn | ⟨p, e, hreg, hlive, _, hall⟩
    · exact Or.inl hn
    · exact Or.inr ⟨p, e, hreg, hlive, hall t ht⟩

theorem monitor_tick_keeps_live_executor_witness :
    heartbeat_monitor_tick 1000000000 20999999999
        { initial with Executor := some 0, heap := [some ⟨5, 999999999⟩] }
      = some { initial with Executor := some 0, heap := [some ⟨5, 999999999⟩] }
    ∧ heartbeat_monitor 1000000000 [5000000000, 10000000000, 15000000000] initial
      = some initial :=
  ⟨(monitor_tick_keeps_live_executor 1000000000 20999999999 []
      { initial with Executor := some 0, heap := [some ⟨5, 999999999⟩] }
      (Or.inr ⟨0, ⟨5, 999999999⟩, rfl, by decide, by decide, by simp⟩)).1,
   (monitor_tick_keeps_live_executor 1000000000 5000000000 [10000000000, 15000000000]
      initial (Or.inl rfl)).2⟩

end EzTasksRelay
